import Mathlib

/-!
# eseed-math: fixed-size matrices (`mat.hpp`) and vector operations (`vecops.hpp`)

A shallow embedding of `esdm::Mat<M, N, T>` and of the free functions of
`vecops.hpp`.

* Storage is unchecked in the source (`data[i][j]`, `expanded[k]`, `v[i]`), so
  every indexed access is embedded as a fallible step: `none` stands for a step without
  a defined result, that is an access outside the storage (undefined behaviour in C++)
  or a use of `operator[]` on an extent where its declared reference type `Col&`
  cannot refer to the stored vector.
* Counted loops `for (i = 0; i < n; i++)` are embedded by `forLoop`, a left fold
  of the loop body over `0, 1, ..., n-1` that stops at the first failing access.
* `vec.hpp` is not among the sources; `Vec` is embedded from its described contract.
-/

namespace esdm

/-! ## Counted loops -/

/-- The loop `for (i = 0; i < n; i++) body(i)` threaded through a state `σ`;
`none` as soon as one iteration performs an access outside its storage. -/
def forLoop {σ : Type} (n : Nat) (body : Nat → σ → Option σ) (s : σ) : Option σ :=
  (List.range n).foldlM (fun acc i => body i acc) s

/-! ## Vec (external collaborator) -/

/-- Modelled from the spec: `Vec<N, T>` of `vec.hpp` (not among the sources), a
fixed-length ordered container of `N` scalars, indexable by position. -/
@[ext]
structure Vec (N : Nat) (T : Type) where
  /-- The `N` components, by position. -/
  comps : Fin N → T

namespace Vec

variable {N : Nat} {T : Type}

/-- Modelled from the spec: the default `Vec` is zero-filled. -/
def zero [Zero T] : Vec N T := ⟨fun _ => 0⟩

/-- Unchecked read `v[i]`: defined only for `i < N`. -/
def get? (v : Vec N T) (i : Nat) : Option T :=
  if h : i < N then some (v.comps ⟨i, h⟩) else none

/-- Unchecked write `v[i] = x`: defined only for `i < N`. -/
def set? (v : Vec N T) (i : Nat) (x : T) : Option (Vec N T) :=
  if h : i < N then some ⟨Function.update v.comps ⟨i, h⟩ x⟩ else none

end Vec

/-! ## Mat -/

/-- The class `MatData<M, N, T>` / `Mat<M, N, T>`: `std::array<Vec<N, T>, M> data`,
that is `M` stored vectors of length `N`. -/
@[ext]
structure Mat (M N : Nat) (T : Type) where
  /-- The member `data`. -/
  data : Fin M → Vec N T

namespace Mat

variable {M N : Nat} {T : Type}

/-- Entry `data[i][j]` for indices known to be in range. -/
def entry (m : Mat M N T) (i : Fin M) (j : Fin N) : T := (m.data i).comps j

/-- The constructor `Mat()`: the body is empty, `data` is default-initialised, so
every stored `Vec` is the default (zero-filled) `Vec`. -/
def default (M N : Nat) (T : Type) [Zero T] : Mat M N T := ⟨fun _ => Vec.zero⟩

/-- Unchecked read of the stored vector `data[i]`: defined only for `i < M`. -/
def row? (m : Mat M N T) (i : Nat) : Option (Vec N T) :=
  if h : i < M then some (m.data ⟨i, h⟩) else none

/-- Unchecked replacement of the stored vector, `data[i] = v`: defined only for `i < M`. -/
def setRow? (m : Mat M N T) (i : Nat) (v : Vec N T) : Option (Mat M N T) :=
  if h : i < M then some ⟨Function.update m.data ⟨i, h⟩ v⟩ else none

/-- Unchecked read `data[i][j]`. -/
def get? (m : Mat M N T) (i j : Nat) : Option T :=
  (m.row? i).bind (fun r => r.get? j)

/-- Unchecked write `data[i][j] = x`: defined only for `i < M` and `j < N`. -/
def set? (m : Mat M N T) (i j : Nat) (x : T) : Option (Mat M N T) :=
  (m.row? i).bind (fun r => (r.set? j x).bind (fun r' => m.setRow? i r'))

/-- The constructor `explicit Mat(T component)`:
`for (i = 0; i < (M > N ? M : N); i++) data[i][i] = component;`
on the default-initialised `data`. -/
def ofScalar (M N : Nat) [Zero T] (component : T) : Option (Mat M N T) :=
  forLoop (if M > N then M else N) (fun i m => m.set? i i component) (Mat.default M N T)

/-- The constructor `Mat(const Ts&... components)` with `sizeof...(Ts) == M * N`:
`T expanded[M * N] = {(T)components...};` then
`for i < M, for j < N: data[i][j] = expanded[i * M + j];`
on the default-initialised `data`. The argument pack is the array `expanded`. -/
def ofComponents (M N : Nat) [Zero T] (expanded : Vec (M * N) T) : Option (Mat M N T) :=
  forLoop M
    (fun i m =>
      forLoop N
        (fun j m' => (expanded.get? (i * M + j)).bind (fun x => m'.set? i j x)) m)
    (Mat.default M N T)

/-- The member `operator[](i) const`, read: `const Col &operator[](i) const { return data[i]; }`
with `Col = Vec<M, T>`, whereas `data[i]` is a `Vec<N, T>`. The result is a vector of
length `M`. For `N = M` it is the stored vector `data[i]`, defined only for `i < M`.
For `N ≠ M` a `Col` reference cannot refer to the stored `Vec<N, T>`: the member is
ill-formed, or at best returns a reference to a temporary that is gone when the
function returns, so no result is defined. -/
def index (m : Mat M N T) (i : Nat) : Option (Vec M T) :=
  if h : N = M then
    (m.row? i).map (fun r => ⟨fun j => r.comps (Fin.cast h.symm j)⟩)
  else none

/-- The member `operator[](i)`, written: `Col &operator[](i) { return data[i]; }` used as
`m[i] = v` with `v` a `Col = Vec<M, T>`. For `N = M` the stored vector `data[i]` is
replaced by `v`, defined only for `i < M`. For `N ≠ M` a `Col&` cannot bind to the
stored `Vec<N, T>`: the member is ill-formed and no result is defined. -/
def setIndex? (m : Mat M N T) (i : Nat) (v : Vec M T) : Option (Mat M N T) :=
  if h : N = M then
    m.setRow? i ⟨fun j => v.comps (Fin.cast h j)⟩
  else none

/-- The member `getCol(j)`: `Col col; for i < M: col[i] = data[i][j]; return col;`
with `Col = Vec<M, T>`. -/
def getCol [Zero T] (m : Mat M N T) (j : Nat) : Option (Vec M T) :=
  forLoop M (fun i col => (m.get? i j).bind (fun x => col.set? i x)) Vec.zero

/-- The member `getRow(i)`: `Row row; for j < N: row[j] = data[i][j]; return row;`
with `Row = Vec<N, T>`. -/
def getRow [Zero T] (m : Mat M N T) (i : Nat) : Option (Vec N T) :=
  forLoop N (fun j row => (m.get? i j).bind (fun x => row.set? j x)) Vec.zero

end Mat

namespace Vec

variable {N : Nat} {T T0 T1 R : Type}

/-- Modelled from the spec: the `Vec` length/type conversion `Vec<L, T>(Vec<L1, T1>)` of
`vec.hpp` (not among the sources): truncate if the source is longer, zero-pad if it
is shorter, each kept component converted by `cast`. -/
def convert {L1 L : Nat} [Zero T] (cast : T1 → T) (v : Vec L1 T1) : Vec L T :=
  ⟨fun j => if h : j.val < L1 then cast (v.comps ⟨j.val, h⟩) else 0⟩

/-- Modelled from the spec: a binary operator of `vec.hpp` (not among the sources) on
two vectors, the scalar operator `op` applied to each pair of components. -/
def zipWith (op : T0 → T1 → R) (a : Vec N T0) (b : Vec N T1) : Vec N R :=
  ⟨fun j => op (a.comps j) (b.comps j)⟩

/-- Modelled from the spec: a binary operator of `vec.hpp` (not among the sources) on a
vector and a scalar, the scalar broadcast on the right. -/
def broadcastR (op : T0 → T1 → R) (a : Vec N T0) (b : T1) : Vec N R :=
  ⟨fun j => op (a.comps j) b⟩

/-- Modelled from the spec: a compound assignment `a op= b` of `vec.hpp` (not among the
sources) on two vectors: the new value of `a`, each component being the scalar
`a[j] op= b[j]`, that is `a[j] op b[j]` computed in the result type `R` of the binary
operator and converted back to the scalar type `T` of `a` by `narrow`. -/
def assign {T : Type} (op : T → T → R) (narrow : R → T) (a b : Vec N T) : Vec N T :=
  ⟨fun j => narrow (op (a.comps j) (b.comps j))⟩

/-- Modelled from the spec: `operator!=` of `vec.hpp` (not among the sources) on two
vectors: true when the scalar `!=`, here `sne`, holds at some position. -/
def ne (sne : T0 → T1 → Bool) (a : Vec N T0) (b : Vec N T1) : Bool :=
  (List.finRange N).any (fun j => sne (a.comps j) (b.comps j))

end Vec

namespace Mat

variable {M N : Nat} {T T0 T1 R : Type}

/-- The constructor `explicit Mat(const Mat<M1, N1, T1>& other)`:
`for (i = 0; i < std::min(M, M1); i++) data[i] = Col(other[i]);`
on the default-initialised `data`, where `Col` is declared `using Col = Vec<M, T>`:
the source vector `other[i]` (the source's `operator[]`, a `Vec<M1, T1>`, defined only
for a square source) is converted to a `Vec<M, T>` (length `M`, the number of
stored vectors), and that vector is stored in `data[i]`, a `Vec<N, T>`: a plain copy when
`M = N`, and for `M ≠ N` the `Vec` length conversion, the only way a `Vec<M, T>` can be
stored in a `Vec<N, T>`. -/
def convert {M1 N1 : Nat} (M N : Nat) [Zero T] (cast : T1 → T) (other : Mat M1 N1 T1) :
    Option (Mat M N T) :=
  forLoop (min M M1)
    (fun i m =>
      (other.index i).bind (fun r =>
        let col : Vec M T := Vec.convert cast r
        m.setRow? i (Vec.convert id col)))
    (Mat.default M N T)

/-- The free `operator==(a, b)`:
`for i < M: if (a[i] != b[i]) return false;` then `return true;`.
The right fold runs iteration `i` first and the later iterations only when iteration
`i` does not return. The scalar `!=` is `sne`. -/
def eq (sne : T0 → T1 → Bool) (a : Mat M N T0) (b : Mat M N T1) : Option Bool :=
  (List.range M).foldr
    (fun i rest =>
      (a.index i).bind (fun ai => (b.index i).bind (fun bi =>
        if Vec.ne sne ai bi then some false else rest)))
    (some true)

/-- The operators generated by `ESEED_MAT_BIN_MM(op)`:
`Mat<M, N, R> out; for i < M: out[i] = a[i] op b[i]; return out;`. -/
def binMM [Zero R] (op : T0 → T1 → R) (a : Mat M N T0) (b : Mat M N T1) :
    Option (Mat M N R) :=
  forLoop M
    (fun i out =>
      (a.index i).bind (fun ai => (b.index i).bind (fun bi =>
        out.setIndex? i (Vec.zipWith op ai bi))))
    (Mat.default M N R)

/-- The operators generated by `ESEED_MAT_BIN_MS(op)`:
`Mat<M, N, R> out; for i < M: out[i] = a[i] op b; return out;`. -/
def binMS [Zero R] (op : T0 → T1 → R) (a : Mat M N T0) (b : T1) : Option (Mat M N R) :=
  forLoop M
    (fun i out => (a.index i).bind (fun ai => out.setIndex? i (Vec.broadcastR op ai b)))
    (Mat.default M N R)

/-- The operators generated by `ESEED_MAT_ASSN_MM(op)`:
`for i < M: a[i] op= b[i]; return a;`. The state is the pair of the two distinct
objects `(a, b)`; `b` is only read, every write goes through `a[i]`, and the returned
reference designates the first component. The binary scalar operator is `op`, with
result type `R`; `narrow` converts its result back to the scalar type `T` of `a`. -/
def assnMM (op : T → T → R) (narrow : R → T) (a b : Mat M N T) :
    Option (Mat M N T × Mat M N T) :=
  forLoop M
    (fun i s =>
      (s.1.index i).bind (fun ai => (s.2.index i).bind (fun bi =>
        (s.1.setIndex? i (Vec.assign op narrow ai bi)).map (fun a' => (a', s.2)))))
    (a, b)

end Mat

/-! ## vecops.hpp -/

/-- The function `dot(a, b)`: `out = 0; for i < L: out += a[i] * b[i]; return out;`. -/
def dot {L : Nat} {T : Type} [Zero T] [Add T] [Mul T] (a b : Vec L T) : Option T :=
  forLoop L
    (fun i out => (a.get? i).bind (fun x => (b.get? i).bind (fun y => some (out + x * y))))
    0

/-! ## Scalar arithmetic of a `w`-bit unsigned integer type -/

/-- Addition of a `w`-bit unsigned integer type: wrap-around modulo `2 ^ w`. -/
def wrapAdd (w : Nat) (x y : Nat) : Nat := (x + y) % 2 ^ w

/-- Multiplication of a `w`-bit unsigned integer type: wrap-around modulo `2 ^ w`. -/
def wrapMul (w : Nat) (x y : Nat) : Nat := (x * y) % 2 ^ w

/-- Conversion of an integer value to a `w`-bit unsigned integer type: reduction modulo
`2 ^ w`. -/
def wrapNarrow (w : Nat) (x : Nat) : Nat := x % 2 ^ w

/-- The scalar `!=` of a type whose equality is decidable and reflexive (every integer
type). -/
def scalarNe {T : Type} [DecidableEq T] (x y : T) : Bool := decide (x ≠ y)

/-! ## Further members of `Vec` used by `mat.hpp` and `vecops.hpp` -/

namespace Vec

variable {N : Nat} {T T0 T1 R : Type}

/-- Modelled from the spec: a unary operator of `vec.hpp` (not among the sources), also
`++` and `--`, on a vector: the scalar operator `f` applied to each component. -/
def map (f : T → R) (a : Vec N T) : Vec N R := ⟨fun j => f (a.comps j)⟩

/-- Modelled from the spec: a binary operator of `vec.hpp` (not among the sources) on a
scalar and a vector, the scalar broadcast on the left. -/
def broadcastL (op : T0 → T1 → R) (a : T0) (b : Vec N T1) : Vec N R :=
  ⟨fun j => op a (b.comps j)⟩

/-- Modelled from the spec: the member `x` of a `Vec3` of `vec.hpp` (not among the
sources), the component at position 0. -/
def x (a : Vec 3 T) : T := a.comps 0

/-- Modelled from the spec: the member `y` of a `Vec3` of `vec.hpp` (not among the
sources), the component at position 1. -/
def y (a : Vec 3 T) : T := a.comps 1

/-- Modelled from the spec: the member `z` of a `Vec3` of `vec.hpp` (not among the
sources), the component at position 2. -/
def z (a : Vec 3 T) : T := a.comps 2

/-- Modelled from the spec: the three-argument constructor `Vec3<T>(c0, c1, c2)` of
`vec.hpp` (not among the sources), the components in argument order. -/
def mk3 (c0 c1 c2 : T) : Vec 3 T := ⟨![c0, c1, c2]⟩

end Vec

namespace Mat

variable {M N : Nat} {T T0 T1 R : Type}

/-- The member `toString()`:
`out = "["; for i < M: { out += data[i].toString(); if (i < M - 1) out += ", "; }`
`out += "]"; return out;`. The string form of a stored vector, `Vec::toString` of
`vec.hpp` (not among the sources), is the parameter `vecToString`. The test `i < M - 1`
is only evaluated inside the loop, where `M ≥ 1`. -/
def toString (vecToString : Vec N T → String) (m : Mat M N T) : Option String :=
  (forLoop M
    (fun i out =>
      (m.row? i).map (fun r =>
        let out1 := out ++ vecToString r
        if i < M - 1 then out1 ++ ", " else out1))
    "[").map (fun out => out ++ "]")

/-- The operators generated by `ESEED_MAT_PRE(op)` (`++m`, `--m`):
`for i < M: op m[i]; return m;`. The scalar step is `step`. The result is the pair of
the final value of the object `m` and of the value the returned reference designates,
which is `m` itself. -/
def preOp (step : T → T) (m : Mat M N T) : Option (Mat M N T × Mat M N T) :=
  (forLoop M
    (fun i cur => (cur.index i).bind (fun r => cur.setIndex? i (Vec.map step r))) m).map
    (fun m' => (m', m'))

/-- The operators generated by `ESEED_MAT_POST(op)` (`m++`, `m--`):
`Mat out = m; for i < M: m[i] op; return out;`. The result is the pair of the final
value of the object `m` and of the returned copy `out`. -/
def postOp (step : T → T) (m : Mat M N T) : Option (Mat M N T × Mat M N T) :=
  let out := m
  (forLoop M
    (fun i cur => (cur.index i).bind (fun r => cur.setIndex? i (Vec.map step r))) m).map
    (fun m' => (m', out))

/-- The operators generated by `ESEED_MAT_UN(op)`:
`Mat<M, N, T> out; for i < M: out[i] = op m[i]; return out;`. -/
def un [Zero T] (op : T → T) (m : Mat M N T) : Option (Mat M N T) :=
  forLoop M
    (fun i out => (m.index i).bind (fun r => out.setIndex? i (Vec.map op r)))
    (Mat.default M N T)

/-- The operators generated by `ESEED_MAT_BIN_SM(op)`:
`Mat<M, N, R> out; for i < M: out[i] = a op b[i]; return out;`. -/
def binSM [Zero R] (op : T0 → T1 → R) (a : T0) (b : Mat M N T1) : Option (Mat M N R) :=
  forLoop M
    (fun i out => (b.index i).bind (fun bi => out.setIndex? i (Vec.broadcastL op a bi)))
    (Mat.default M N R)

end Mat

/-! ## vecops.hpp, continued -/

/-- The shape shared by `allinf` and `allnan`:
`for i < L: if (!pred(v[i])) return false;` then `return true;`. -/
def allPred {L : Nat} {T : Type} (pred : T → Bool) (v : Vec L T) : Option Bool :=
  (List.range L).foldr
    (fun i rest => (v.get? i).bind (fun c => if !pred c then some false else rest))
    (some true)

/-- The shape shared by `anyinf` and `anynan`:
`for i < L: if (pred(v[i])) return true;` then `return false;`. -/
def anyPred {L : Nat} {T : Type} (pred : T → Bool) (v : Vec L T) : Option Bool :=
  (List.range L).foldr
    (fun i rest => (v.get? i).bind (fun c => if pred c then some true else rest))
    (some false)

/-- The function `allinf(v)`: `for i < L: if (!isinf(v[i])) return false; return true;`. -/
def allinf {L : Nat} {T : Type} (isinf : T → Bool) (v : Vec L T) : Option Bool :=
  allPred isinf v

/-- The function `anyinf(v)`: `for i < L: if (isinf(v[i])) return true; return false;`. -/
def anyinf {L : Nat} {T : Type} (isinf : T → Bool) (v : Vec L T) : Option Bool :=
  anyPred isinf v

/-- The function `allnan(v)`: `for i < L: if (!isnan(v[i])) return false; return true;`. -/
def allnan {L : Nat} {T : Type} (isnan : T → Bool) (v : Vec L T) : Option Bool :=
  allPred isnan v

/-- The function `anynan(v)`: `for i < L: if (isnan(v[i])) return true; return false;`. -/
def anynan {L : Nat} {T : Type} (isnan : T → Bool) (v : Vec L T) : Option Bool :=
  anyPred isnan v

/-- A floating-point value as far as `isnan` and `isinf` tell values apart. -/
inductive FpClass where
  | nan
  | inf
  | finite (value : Rat)

/-- The library predicate `isnan` on a classified value. -/
def FpClass.isnan : FpClass → Bool
  | .nan => true
  | _ => false

/-- The library predicate `isinf` on a classified value. -/
def FpClass.isinf : FpClass → Bool
  | .inf => true
  | _ => false

/-- The function `cross(a, b)`:
`return Vec3<R>(a.y * b.z - a.z * b.y, a.z * b.x - a.x * b.z, a.x * b.y - a.y * b.x);`. -/
def cross {T : Type} [Sub T] [Mul T] (a b : Vec 3 T) : Vec 3 T :=
  Vec.mk3 (a.y * b.z - a.z * b.y) (a.z * b.x - a.x * b.z) (a.x * b.y - a.y * b.x)

/-- Modelled from the spec: the scalar `sq` of `ops.hpp` (not among the sources), the
square of its argument. -/
def sq {T : Type} [Mul T] (c : T) : T := c * c

/-- The function `pow(b, e)` as its body is written:
`Vec<L, T> out; for i < L: out[i] = sq(v[i]); return out;`.
Neither `T` nor `v` is declared in the function: `T` is read as the scalar type of the
result and the undeclared vector `v` is a parameter of its own. The declared parameters
`b` and `e` occur nowhere in the body. -/
def pow {L : Nat} {T T1 : Type} [Zero T] [Mul T] (v : Vec L T) (_b : Vec L T) (_e : T1) :
    Option (Vec L T) :=
  forLoop L (fun i out => (v.get? i).bind (fun c => out.set? i (sq c))) Vec.zero

/-! ## Counted loops: unfolding and invariants -/

theorem forLoop_zero {σ : Type} (body : Nat → σ → Option σ) (s : σ) :
    forLoop 0 body s = some s := rfl

theorem forLoop_succ {σ : Type} (n : Nat) (body : Nat → σ → Option σ) (s : σ) :
    forLoop (n + 1) body s = (forLoop n body s).bind (body n) := by
  simp [forLoop, List.range_succ, List.foldlM_append]

/-- Invariant rule: if `P 0` holds initially and every iteration `i < n` started in a
state satisfying `P i` succeeds and establishes `P (i + 1)`, the loop succeeds and ends
in a state satisfying `P n`. -/
theorem forLoop_inv {σ : Type} (P : Nat → σ → Prop) (n : Nat) (body : Nat → σ → Option σ)
    (s : σ) (h0 : P 0 s)
    (hstep : ∀ i t, i < n → P i t → ∃ t', body i t = some t' ∧ P (i + 1) t') :
    ∃ t, forLoop n body s = some t ∧ P n t := by
  induction n with
  | zero => exact ⟨s, rfl, h0⟩
  | succ k ih =>
    obtain ⟨t, ht, hP⟩ := ih (fun i t hi hp => hstep i t (Nat.lt_succ_of_lt hi) hp)
    obtain ⟨t', ht', hP'⟩ := hstep k t (Nat.lt_succ_self k) hP
    exact ⟨t', by rw [forLoop_succ, ht]; simpa using ht', hP'⟩

/-- A loop one of whose iterations fails from every state fails. -/
theorem forLoop_eq_none {σ : Type} (n : Nat) (body : Nat → σ → Option σ) (s : σ) (i : Nat)
    (hi : i < n) (hfail : ∀ t, body i t = none) : forLoop n body s = none := by
  induction n with
  | zero => exact absurd hi (Nat.not_lt_zero i)
  | succ k ih =>
    rw [forLoop_succ]
    rcases Nat.lt_succ_iff_lt_or_eq.mp hi with h | h
    · rw [ih h]; rfl
    · subst h
      cases forLoop i body s with
      | none => rfl
      | some t => exact hfail t

/-! ## Unchecked accesses inside and outside the storage -/

theorem Vec.read_in_range {N : Nat} {T : Type} (v : Vec N T) {i : Nat} (h : i < N) :
    v.get? i = some (v.comps ⟨i, h⟩) := by
  simp [Vec.get?, h]

theorem Vec.write_in_range {N : Nat} {T : Type} (v : Vec N T) {i : Nat} (h : i < N) (x : T) :
    v.set? i x = some ⟨Function.update v.comps ⟨i, h⟩ x⟩ := by
  simp [Vec.set?, h]

theorem Vec.write_out_of_range {N : Nat} {T : Type} (v : Vec N T) {i : Nat} (h : N ≤ i) (x : T) :
    v.set? i x = none := by
  simp [Vec.set?, Nat.not_lt.mpr h]

theorem Mat.row?_of_lt {M N : Nat} {T : Type} (m : Mat M N T) {i : Nat} (h : i < M) :
    m.row? i = some (m.data ⟨i, h⟩) := by
  simp [Mat.row?, h]

theorem Mat.row?_of_ge {M N : Nat} {T : Type} (m : Mat M N T) {i : Nat} (h : M ≤ i) :
    m.row? i = none := by
  simp [Mat.row?, Nat.not_lt.mpr h]

/-- On a square extent `operator[]` reads the stored vector. -/
theorem Mat.index_of_lt {K : Nat} {T : Type} (m : Mat K K T) {i : Nat} (h : i < K) :
    m.index i = some (m.data ⟨i, h⟩) := by
  simp [Mat.index, Mat.row?, h]

/-- On a square extent a write through `operator[]` replaces the stored vector. -/
theorem Mat.setIndex?_square {K : Nat} {T : Type} (m : Mat K K T) (i : Nat) (v : Vec K T) :
    m.setIndex? i v = m.setRow? i v := by
  simp [Mat.setIndex?]

/-- On a non-square extent `operator[]` has no defined result. -/
theorem Mat.index_nonsquare {M N : Nat} {T : Type} (m : Mat M N T) (i : Nat) (h : N ≠ M) :
    m.index i = none := by
  simp [Mat.index, h]

theorem Mat.index_nonsquare_witness :
    (3 : Nat) ≠ 2 ∧ (⟨![⟨![1, 2, 3]⟩, ⟨![4, 5, 6]⟩]⟩ : Mat 2 3 Int).index 1 = none :=
  ⟨by decide, Mat.index_nonsquare _ 1 (by decide)⟩

theorem Mat.setRow?_of_lt {M N : Nat} {T : Type} (m : Mat M N T) {i : Nat} (h : i < M)
    (v : Vec N T) : m.setRow? i v = some ⟨Function.update m.data ⟨i, h⟩ v⟩ := by
  simp [Mat.setRow?, h]

theorem Mat.get?_of_lt {M N : Nat} {T : Type} (m : Mat M N T) {i j : Nat} (hi : i < M)
    (hj : j < N) : m.get? i j = some (m.entry ⟨i, hi⟩ ⟨j, hj⟩) := by
  simp [Mat.get?, Mat.row?_of_lt m hi, Vec.read_in_range _ hj, Mat.entry]

theorem Mat.set?_of_lt {M N : Nat} {T : Type} (m : Mat M N T) {i j : Nat} (hi : i < M)
    (hj : j < N) (x : T) :
    m.set? i j x = some ⟨Function.update m.data ⟨i, hi⟩
      ⟨Function.update (m.data ⟨i, hi⟩).comps ⟨j, hj⟩ x⟩⟩ := by
  simp [Mat.set?, Mat.row?_of_lt m hi, Vec.write_in_range _ hj, Mat.setRow?_of_lt m hi]

/-- A write `data[i][j] = x` with `i` or `j` outside the extents is outside the storage. -/
theorem Mat.set?_of_ge {M N : Nat} {T : Type} (m : Mat M N T) {i j : Nat}
    (h : M ≤ i ∨ N ≤ j) (x : T) : m.set? i j x = none := by
  unfold Mat.set?
  by_cases hi : i < M
  · have hj : N ≤ j := h.resolve_left (Nat.not_le.mpr hi)
    simp [Mat.row?_of_lt m hi, Vec.write_out_of_range _ hj]
  · simp [Mat.row?_of_ge m (Nat.not_lt.mp hi)]

/-- The entry written by `data[i][j] = x`, and every other entry kept. -/
theorem Mat.entry_set {M N : Nat} {T : Type} (m : Mat M N T) (i : Fin M) (j : Fin N) (x : T)
    (r : Fin M) (c : Fin N) :
    (Mat.mk (Function.update m.data i ⟨Function.update (m.data i).comps j x⟩)).entry r c =
      if r = i ∧ c = j then x else m.entry r c := by
  unfold Mat.entry
  by_cases hr : r = i
  · subst hr
    by_cases hc : c = j
    · subst hc; simp
    · simp [hc]
  · simp [hr]

/-! ## Constructors -/

/-- On a square extent the scalar constructor succeeds and builds the diagonal matrix. -/
theorem Mat.ofScalar_square {T : Type} [Zero T] (K : Nat) (component : T) :
    ∃ m, Mat.ofScalar K K component = some m ∧
      ∀ i j : Fin K, m.entry i j = if i = j then component else 0 := by
  have hbound : (if K > K then K else K) = K := by simp
  unfold Mat.ofScalar
  rw [hbound]
  obtain ⟨m, hm, hP⟩ := forLoop_inv
    (fun n (m : Mat K K T) =>
      ∀ i j : Fin K, m.entry i j = if i = j ∧ i.val < n then component else 0)
    K (fun i m => m.set? i i component) (Mat.default K K T)
    (by intro i j; simp [Mat.default, Mat.entry, Vec.zero])
    (by
      intro n t hn hP
      refine ⟨_, Mat.set?_of_lt t hn hn component, ?_⟩
      intro i j
      rw [Mat.entry_set, hP i j]
      by_cases hij : i = j
      · subst hij
        by_cases hin : i = ⟨n, hn⟩
        · subst hin; simp
        · have hne : i.val ≠ n := fun h => hin (Fin.ext h)
          simp [hin, Nat.lt_succ_iff, Nat.lt_iff_le_and_ne, hne]
      · have : ¬ (i = ⟨n, hn⟩ ∧ j = ⟨n, hn⟩) := fun h => hij (h.1.trans h.2.symm)
        simp [hij, this])
  refine ⟨m, hm, ?_⟩
  intro i j
  rw [hP i j]
  simp [i.isLt]

/-- On every non-square extent the scalar constructor writes outside the storage: the
loop runs up to the longer extent, and the index equal to the shorter extent is already
outside. -/
theorem Mat.ofScalar_nonsquare {T : Type} [Zero T] (M N : Nat) (component : T) (h : M ≠ N) :
    Mat.ofScalar M N component = none := by
  unfold Mat.ofScalar
  refine forLoop_eq_none _ _ _ (min M N) ?_ ?_
  · split <;> omega
  · intro t
    apply Mat.set?_of_ge
    omega

theorem Mat.ofScalar_nonsquare_witness : (2 : Nat) ≠ 1 ∧ Mat.ofScalar 2 1 (5 : Int) = none :=
  ⟨by decide, Mat.ofScalar_nonsquare 2 1 5 (by decide)⟩

/-- C1 (code defect): the scalar constructor `Mat<2,1,int>(5)` and `Mat<1,2,int>(5)` run
the loop to the longer extent and write `data[1][1]`, outside the storage, whereas the
square `Mat<2,2,int>(5)` is the diagonal matrix. -/
theorem Mat.ofScalar_rectangular_out_of_bounds :
    Mat.ofScalar 2 1 (5 : Int) = none ∧ Mat.ofScalar 1 2 (5 : Int) = none ∧
    (Mat.default 2 1 Int).set? 1 1 5 = none ∧ (Mat.default 1 2 Int).set? 1 1 5 = none ∧
    (Mat.ofScalar 2 2 (5 : Int)).map
      (fun m => [[m.entry 0 0, m.entry 0 1], [m.entry 1 0, m.entry 1 1]]) =
        some [[5, 0], [0, 5]] :=
  ⟨rfl, rfl, rfl, rfl, by decide⟩

/-- Whenever every index `i * M + j` read from `expanded` is inside it, the
multi-argument constructor succeeds and stores `expanded[i * M + j]` at `(i, j)`. -/
theorem Mat.ofComponents_entry {T : Type} [Zero T] (M N : Nat) (expanded : Vec (M * N) T)
    (hb : ∀ i j, i < M → j < N → i * M + j < M * N) :
    ∃ m, Mat.ofComponents M N expanded = some m ∧
      ∀ (i : Fin M) (j : Fin N), expanded.get? (i.val * M + j.val) = some (m.entry i j) := by
  unfold Mat.ofComponents
  obtain ⟨m, hm, hP⟩ := forLoop_inv
    (fun n (m : Mat M N T) => ∀ (i : Fin M) (j : Fin N), i.val < n →
      expanded.get? (i.val * M + j.val) = some (m.entry i j))
    M _ (Mat.default M N T)
    (by intro i j h; exact absurd h (Nat.not_lt_zero _))
    (by
      intro n t hn hP
      obtain ⟨t', ht', hQ⟩ := forLoop_inv
        (fun c (t' : Mat M N T) =>
          (∀ (i : Fin M) (j : Fin N), i.val < n →
            expanded.get? (i.val * M + j.val) = some (t'.entry i j)) ∧
          (∀ j : Fin N, j.val < c →
            expanded.get? (n * M + j.val) = some (t'.entry ⟨n, hn⟩ j)))
        N (fun j m' => (expanded.get? (n * M + j)).bind (fun x => m'.set? n j x)) t
        ⟨hP, by intro j h; exact absurd h (Nat.not_lt_zero _)⟩
        (by
          intro c u hc hQ
          have hread := Vec.read_in_range expanded (hb n c hn hc)
          refine ⟨_, by beta_reduce; rw [hread]; exact Mat.set?_of_lt u hn hc _, ?_, ?_⟩
          · intro i j hi
            have hne : i ≠ ⟨n, hn⟩ := fun h => by rw [h] at hi; exact Nat.lt_irrefl _ hi
            rw [Mat.entry_set]
            simp [hne, hQ.1 i j hi]
          · intro j hj
            rw [Mat.entry_set]
            by_cases hjc : j = ⟨c, hc⟩
            · subst hjc; simp [hread]
            · have hne : j.val ≠ c := fun h => hjc (Fin.ext h)
              simp [hjc, hQ.2 j (by omega)])
      refine ⟨t', ht', ?_⟩
      intro i j hi
      by_cases hin : i.val < n
      · exact hQ.1 i j hin
      · have hi' : i = ⟨n, hn⟩ := Fin.ext (by simp; omega)
        subst hi'
        exact hQ.2 j j.isLt)
  exact ⟨m, hm, fun i j => hP i j i.isLt⟩

theorem Mat.ofComponents_entry_witness :
    (∀ i j, i < 2 → j < 2 → i * 2 + j < 2 * 2) ∧
    ∃ m, Mat.ofComponents 2 2 (⟨![1, 2, 3, 4]⟩ : Vec (2 * 2) Int) = some m ∧
      ∀ (i : Fin 2) (j : Fin 2),
        (⟨![1, 2, 3, 4]⟩ : Vec (2 * 2) Int).get? (i.val * 2 + j.val) = some (m.entry i j) :=
  ⟨by omega, Mat.ofComponents_entry 2 2 _ (by omega)⟩

/-- C2 (code defect): the multi-argument constructor reads `expanded[i * M + j]`, not
`expanded[i * N + j]`. For `Mat<2,3,int>(1,2,3,4,5,6)` it stores the rows `(1,2,3)` and
`(3,4,5)`: entry `(1,0)` is argument `2` (value 3), not argument `1*3+0` (value 4), the
argument `6` is never stored and `3` is stored twice. For `Mat<2,1,int>(1,2)` and
`Mat<3,2,int>(1,..,6)` it reads outside `expanded`. -/
theorem Mat.ofComponents_stride_is_row_count :
    (Mat.ofComponents 2 3 (⟨![1, 2, 3, 4, 5, 6]⟩ : Vec (2 * 3) Int)).map
      (fun m => [[m.entry 0 0, m.entry 0 1, m.entry 0 2],
                 [m.entry 1 0, m.entry 1 1, m.entry 1 2]]) =
        some [[1, 2, 3], [3, 4, 5]] ∧
    (⟨![1, 2, 3, 4, 5, 6]⟩ : Vec (2 * 3) Int).get? (1 * 3 + 0) = some 4 ∧
    Mat.ofComponents 2 1 (⟨![1, 2]⟩ : Vec (2 * 1) Int) = none ∧
    Mat.ofComponents 3 2 (⟨![1, 2, 3, 4, 5, 6]⟩ : Vec (3 * 2) Int) = none :=
  ⟨by decide, by decide, rfl, rfl⟩

/-! ## Loops that store one vector per iteration -/

/-- A loop whose iteration `i` stores the vector `g i` in `data[i]` succeeds for every
bound `K ≤ M`, and afterwards `data[r]` is `g r` for `r < K` and untouched otherwise. -/
theorem forLoop_setRow {M N : Nat} {R : Type} (g : Fin M → Vec N R)
    (body : Nat → Mat M N R → Option (Mat M N R)) (K : Nat) (hK : K ≤ M)
    (hbody : ∀ i (h : i < M), i < K → ∀ out, body i out = out.setRow? i (g ⟨i, h⟩))
    (init : Mat M N R) :
    ∃ out, forLoop K body init = some out ∧
      ∀ r : Fin M, out.data r = if r.val < K then g r else init.data r := by
  obtain ⟨out, hout, hP⟩ := forLoop_inv
    (fun n (out : Mat M N R) =>
      ∀ r : Fin M, out.data r = if r.val < n then g r else init.data r)
    K body init (by intro r; simp)
    (by
      intro n t hn hP
      have hnM : n < M := Nat.lt_of_lt_of_le hn hK
      refine ⟨_, by rw [hbody n hnM hn]; exact Mat.setRow?_of_lt t hnM _, ?_⟩
      intro r
      by_cases hr : r = ⟨n, hnM⟩
      · subst hr; simp
      · have hne : r.val ≠ n := fun h => hr (Fin.ext h)
        show Function.update t.data ⟨n, hnM⟩ (g ⟨n, hnM⟩) r = _
        rw [Function.update_noteq hr, hP r]
        by_cases hlt : r.val < n
        · simp [hlt, Nat.lt_succ_of_lt hlt]
        · have : ¬ r.val < n + 1 := by omega
          simp [hlt, this])
  exact ⟨out, hout, hP⟩

/-! ## Operators -/

/-- On a square extent every operator generated by `ESEED_MAT_BIN_MM` succeeds and is
elementwise. -/
theorem Mat.binMM_spec {K : Nat} {T0 T1 R : Type} [Zero R] (op : T0 → T1 → R)
    (a : Mat K K T0) (b : Mat K K T1) :
    ∃ out, Mat.binMM op a b = some out ∧
      ∀ (i j : Fin K), out.entry i j = op (a.entry i j) (b.entry i j) := by
  obtain ⟨out, hout, hrows⟩ := forLoop_setRow
    (fun r => Vec.zipWith op (a.data r) (b.data r))
    (fun i out =>
      (a.index i).bind (fun ai => (b.index i).bind (fun bi =>
        out.setIndex? i (Vec.zipWith op ai bi))))
    K (Nat.le_refl K)
    (by
      intro i h _ out
      simp [Mat.index_of_lt a h, Mat.index_of_lt b h, Mat.setIndex?_square])
    (Mat.default K K R)
  refine ⟨out, hout, ?_⟩
  intro i j
  simp [Mat.entry, hrows i, Vec.zipWith]

/-- On a square extent every operator generated by `ESEED_MAT_BIN_MS` succeeds and
applies the scalar operator to each entry and the broadcast scalar, in this order. -/
theorem Mat.binMS_spec {K : Nat} {T0 T1 R : Type} [Zero R] (op : T0 → T1 → R)
    (a : Mat K K T0) (b : T1) :
    ∃ out, Mat.binMS op a b = some out ∧
      ∀ (i j : Fin K), out.entry i j = op (a.entry i j) b := by
  obtain ⟨out, hout, hrows⟩ := forLoop_setRow
    (fun r => Vec.broadcastR op (a.data r) b)
    (fun i out => (a.index i).bind (fun ai => out.setIndex? i (Vec.broadcastR op ai b)))
    K (Nat.le_refl K)
    (by intro i h _ out; simp [Mat.index_of_lt a h, Mat.setIndex?_square])
    (Mat.default K K R)
  refine ⟨out, hout, ?_⟩
  intro i j
  simp [Mat.entry, hrows i, Vec.broadcastR]

/-- Two matrices with the same entries are the same matrix. -/
theorem Mat.ext_entry {M N : Nat} {T : Type} {a b : Mat M N T}
    (h : ∀ (i : Fin M) (j : Fin N), a.entry i j = b.entry i j) : a = b := by
  apply Mat.ext
  funext i
  apply Vec.ext
  funext j
  exact h i j

/-- C4 (code defect): on square extents, for every scalar operator `op` (each of
`+ - * / % & | ^ << >>` is one instance of the same generated body), `A op B` is produced
and its entry `(i, j)` is `A[i][j] op B[i][j]`; `A * B` is the elementwise product: for
`A = (1 2; 3 4)`, `B = (5 6; 7 8)` it is `(5 12; 21 32)`, whose entry `(0,0)` differs
from the entry `1*5 + 2*7 = 19` of the linear-algebra product. On the non-square
`Mat<2,3,int>` the generated body has no defined result: `a[0]` and `out[0]` go through
`operator[]`, whose `Col&` is a `Vec<2,int>&` over a stored `Vec<3,int>`. -/
theorem Mat.binMM_elementwise_on_square_only :
    (∀ (K : Nat) (T0 T1 R : Type) [Zero R] (op : T0 → T1 → R)
      (a : Mat K K T0) (b : Mat K K T1),
      ∃ out, Mat.binMM op a b = some out ∧
        ∀ (i j : Fin K), out.entry i j = op (a.entry i j) (b.entry i j)) ∧
    (Mat.binMM (fun x y : Int => x * y)
        (⟨![⟨![1, 2]⟩, ⟨![3, 4]⟩]⟩ : Mat 2 2 Int) ⟨![⟨![5, 6]⟩, ⟨![7, 8]⟩]⟩).map
      (fun m => [[m.entry 0 0, m.entry 0 1], [m.entry 1 0, m.entry 1 1]]) =
        some [[5, 12], [21, 32]] ∧
    (∑ k : Fin 2, (⟨![⟨![1, 2]⟩, ⟨![3, 4]⟩]⟩ : Mat 2 2 Int).entry 0 k *
        (⟨![⟨![5, 6]⟩, ⟨![7, 8]⟩]⟩ : Mat 2 2 Int).entry k 0) = 19 ∧
    Mat.binMM (fun x y : Int => x + y) (⟨![⟨![1, 2, 3]⟩, ⟨![4, 5, 6]⟩]⟩ : Mat 2 3 Int) (⟨![⟨![1, 2, 3]⟩, ⟨![4, 5, 6]⟩]⟩ : Mat 2 3 Int) = none ∧
    (⟨![⟨![1, 2, 3]⟩, ⟨![4, 5, 6]⟩]⟩ : Mat 2 3 Int).index 0 = none ∧
    (Mat.default 2 3 Int).setIndex? 0 ⟨![2, 4]⟩ = none :=
  ⟨fun _ _ _ _ _ op a b => Mat.binMM_spec op a b, by decide, by decide, rfl, rfl, rfl⟩

/-- C8 (code defect): on square extents, over a `w`-bit wrap-around integer type (and over
the integers), `A + A` and `A * 2` are both produced and are the same matrix, every
entry being `2 * A[i][j]` (modulo `2 ^ w`). On the non-square `Mat<2,3,int>` neither
`A + A` nor `A * 2` has a defined result. -/
theorem Mat.add_self_eq_mul_two_on_square_only :
    (∀ (K w : Nat) (A : Mat K K Nat),
      ∃ out, Mat.binMM (wrapAdd w) A A = some out ∧ Mat.binMS (wrapMul w) A 2 = some out ∧
        ∀ (i j : Fin K), out.entry i j = (2 * A.entry i j) % 2 ^ w) ∧
    (∀ (K : Nat) (A : Mat K K Int),
      ∃ out, Mat.binMM (fun x y => x + y) A A = some out ∧
        Mat.binMS (fun x y => x * y) A 2 = some out ∧
        ∀ (i j : Fin K), out.entry i j = 2 * A.entry i j) ∧
    Mat.binMM (fun x y : Int => x + y) (⟨![⟨![1, 2, 3]⟩, ⟨![4, 5, 6]⟩]⟩ : Mat 2 3 Int) (⟨![⟨![1, 2, 3]⟩, ⟨![4, 5, 6]⟩]⟩ : Mat 2 3 Int) = none ∧
    Mat.binMS (fun x y : Int => x * y) (⟨![⟨![1, 2, 3]⟩, ⟨![4, 5, 6]⟩]⟩ : Mat 2 3 Int) 2 = none := by
  refine ⟨?_, ?_, rfl, rfl⟩
  · intro K w A
    obtain ⟨s, hs, hsE⟩ := Mat.binMM_spec (wrapAdd w) A A
    obtain ⟨p, hp, hpE⟩ := Mat.binMS_spec (wrapMul w) A 2
    have hsp : p = s := Mat.ext_entry (fun i j => by
      rw [hsE, hpE]; simp [wrapAdd, wrapMul, Nat.mul_two])
    refine ⟨s, hs, hsp ▸ hp, ?_⟩
    intro i j
    rw [hsE]; simp [wrapAdd, Nat.two_mul]
  · intro K A
    obtain ⟨s, hs, hsE⟩ := Mat.binMM_spec (fun x y : Int => x + y) A A
    obtain ⟨p, hp, hpE⟩ := Mat.binMS_spec (fun x y : Int => x * y) A 2
    have hsp : p = s := Mat.ext_entry (fun i j => by
      rw [hsE, hpE]; ring)
    refine ⟨s, hs, hsp ▸ hp, ?_⟩
    intro i j
    rw [hsE]; ring

/-! ## Conversion between extents -/

/-- From a square source the cross-extent conversion constructor always succeeds.
Entry `(i, j)` of the result is the converted source entry when `i < K1`, `j < K1` and,
the copied vector being a `Col = Vec<M, T>`, also `j < M`; every other entry is `0`. -/
theorem Mat.convert_entry {K1 : Nat} {T T1 : Type} [Zero T] (M N : Nat) (cast : T1 → T)
    (other : Mat K1 K1 T1) :
    ∃ m, Mat.convert M N cast other = some m ∧
      ∀ (i : Fin M) (j : Fin N), m.entry i j =
        if h : i.val < K1 ∧ j.val < K1 ∧ j.val < M
          then cast (other.entry ⟨i.val, h.1⟩ ⟨j.val, h.2.1⟩) else 0 := by
  obtain ⟨m, hm, hrows⟩ := forLoop_setRow
    (fun r : Fin M =>
      if h : r.val < K1 then
        (Vec.convert id (Vec.convert cast (other.data ⟨r.val, h⟩) : Vec M T) : Vec N T)
      else Vec.zero)
    (fun i m =>
      (other.index i).bind (fun r =>
        let col : Vec M T := Vec.convert cast r
        m.setRow? i (Vec.convert id col)))
    (min M K1) (Nat.min_le_left M K1)
    (by
      intro i h hi out
      have hi1 : i < K1 := Nat.lt_of_lt_of_le hi (Nat.min_le_right M K1)
      simp [Mat.index_of_lt other hi1, hi1])
    (Mat.default M N T)
  refine ⟨m, hm, ?_⟩
  intro i j
  unfold Mat.entry
  rw [hrows i]
  by_cases hi : i.val < K1
  · have hmin : i.val < min M K1 := Nat.lt_min.mpr ⟨i.isLt, hi⟩
    by_cases hjM : j.val < M
    · by_cases hjN : j.val < K1
      · simp [hmin, hi, hjM, hjN, Vec.convert]
      · simp [hmin, hi, hjM, hjN, Vec.convert]
    · simp [hmin, hi, hjM, Vec.convert]
  · have hmin : ¬ i.val < min M K1 :=
      fun h => hi (Nat.lt_of_lt_of_le h (Nat.min_le_right M K1))
    simp [hmin, hi, Mat.default, Vec.zero]

/-- Between square extents the conversion copies the overlapping block and zero-fills
the rest. -/
theorem Mat.convert_square_entry {K1 : Nat} {T T1 : Type} [Zero T] (K : Nat) (cast : T1 → T)
    (other : Mat K1 K1 T1) :
    ∃ m, Mat.convert K K cast other = some m ∧
      ∀ (i j : Fin K), m.entry i j =
        if h : i.val < K1 ∧ j.val < K1
          then cast (other.entry ⟨i.val, h.1⟩ ⟨j.val, h.2⟩) else 0 := by
  obtain ⟨m, hm, hE⟩ := Mat.convert_entry K K cast other
  refine ⟨m, hm, ?_⟩
  intro i j
  rw [hE i j]
  by_cases h : i.val < K1 ∧ j.val < K1
  · have h' : i.val < K1 ∧ j.val < K1 ∧ j.val < K := ⟨h.1, h.2, j.isLt⟩
    simp [h, h']
  · have h' : ¬ (i.val < K1 ∧ j.val < K1 ∧ j.val < K) := fun c => h ⟨c.1, c.2.1⟩
    simp [h, h']

/-- C3 (code defect): the conversion constructor copies `Col(other[i])` with
`Col = Vec<M, T>`, so the copied vector has the length `M` of the row count, not the
row length `N`. Converting the 2x2 matrix `(1 2; 3 4)` to `Mat<1,2,int>` gives the row
`(1, 0)`: entry `(0,1)` is `0` although `0 < min(1,2)`, `1 < min(2,2)` and the source
entry `(0,1)` is `2`. -/
theorem Mat.convert_copies_col_length :
    (Mat.convert 1 2 (fun x : Int => x) (⟨![⟨![1, 2]⟩, ⟨![3, 4]⟩]⟩ : Mat 2 2 Int)).map
      (fun m => [[m.entry 0 0, m.entry 0 1]]) = some [[1, 0]] ∧
    (⟨![⟨![1, 2]⟩, ⟨![3, 4]⟩]⟩ : Mat 2 2 Int).entry 0 1 = 2 ∧
    (0 < min 1 2 ∧ 1 < min 2 2) :=
  ⟨by decide, by decide, by decide⟩

/-! ## Rows and columns -/

/-- The member `getCol(j)` for `j < N` succeeds and gathers entry `j` of every stored
vector. -/
theorem Mat.getCol_spec {M N : Nat} {T : Type} [Zero T] (m : Mat M N T) (j : Fin N) :
    ∃ col, m.getCol j.val = some col ∧ ∀ i : Fin M, col.comps i = m.entry i j := by
  unfold Mat.getCol
  obtain ⟨col, hcol, hP⟩ := forLoop_inv
    (fun n (col : Vec M T) => ∀ i : Fin M, i.val < n → col.comps i = m.entry i j)
    M (fun i col => (m.get? i j.val).bind (fun x => col.set? i x)) Vec.zero
    (by intro i h; exact absurd h (Nat.not_lt_zero _))
    (by
      intro n t hn hP
      refine ⟨_, by beta_reduce; rw [Mat.get?_of_lt m hn j.isLt]; exact Vec.write_in_range t hn _, ?_⟩
      intro i hi
      by_cases hin : i = ⟨n, hn⟩
      · subst hin; simp
      · have hne : i.val ≠ n := fun h => hin (Fin.ext h)
        show Function.update t.comps ⟨n, hn⟩ _ i = _
        rw [Function.update_noteq hin]
        exact hP i (by omega))
  exact ⟨col, hcol, fun i => hP i i.isLt⟩

/-- The member `getRow(i)` for `i < M` succeeds and returns the stored vector `data[i]`. -/
theorem Mat.getRow_spec {M N : Nat} {T : Type} [Zero T] (m : Mat M N T) (i : Fin M) :
    m.getRow i.val = some (m.data i) := by
  unfold Mat.getRow
  obtain ⟨row, hrow, hP⟩ := forLoop_inv
    (fun n (row : Vec N T) => ∀ j : Fin N, j.val < n → row.comps j = m.entry i j)
    N (fun j row => (m.get? i.val j).bind (fun x => row.set? j x)) Vec.zero
    (by intro j h; exact absurd h (Nat.not_lt_zero _))
    (by
      intro n t hn hP
      refine ⟨_, by beta_reduce; rw [Mat.get?_of_lt m i.isLt hn]; exact Vec.write_in_range t hn _, ?_⟩
      intro j hj
      by_cases hjn : j = ⟨n, hn⟩
      · subst hjn; simp
      · have hne : j.val ≠ n := fun h => hjn (Fin.ext h)
        show Function.update t.comps ⟨n, hn⟩ _ j = _
        rw [Function.update_noteq hjn]
        exact hP j (by omega))
  rw [hrow]
  congr 1
  apply Vec.ext
  funext j
  exact hP j j.isLt

/-- C5 (code defect): for every `M x N` matrix `m`, `i < M` and `j < N`, `getCol(j)`
returns a vector of length `M` and `getRow(i)` a vector of length `N` with
`getCol(j)[i] = getRow(i)[j] = m[i][j]`; `getCol(j)` gathers entry `j` of every row and
`getRow(i)` is the stored vector `data[i]`. On square extents that is the vector
returned by the indexing operator `m[i]`; on the non-square `Mat<2,3,int>` `getRow(1)`
is `(4,5,6)` while `m[1]`, declared `Col& = Vec<2,int>&`, has no defined result. -/
theorem Mat.getCol_getRow_entry_index_on_square_only :
    (∀ (M N : Nat) (T : Type) [Zero T] (m : Mat M N T) (i : Fin M) (j : Fin N),
      ∃ (col : Vec M T) (row : Vec N T),
        m.getCol j.val = some col ∧ m.getRow i.val = some row ∧
        col.get? i.val = some (m.entry i j) ∧ row.get? j.val = some (m.entry i j) ∧
        m.get? i.val j.val = some (m.entry i j) ∧
        (∀ r : Fin M, col.comps r = m.entry r j) ∧
        row = m.data i) ∧
    (∀ (K : Nat) (T : Type) [Zero T] (m : Mat K K T) (i : Fin K),
      m.index i.val = m.getRow i.val) ∧
    ((⟨![⟨![1, 2, 3]⟩, ⟨![4, 5, 6]⟩]⟩ : Mat 2 3 Int).getRow 1).map (fun r => [r.comps 0, r.comps 1, r.comps 2]) = some [4, 5, 6] ∧
    (⟨![⟨![1, 2, 3]⟩, ⟨![4, 5, 6]⟩]⟩ : Mat 2 3 Int).index 1 = none := by
  refine ⟨?_, ?_, by decide, rfl⟩
  · intro M N T _ m i j
    obtain ⟨col, hcol, hE⟩ := Mat.getCol_spec m j
    refine ⟨col, m.data i, hcol, Mat.getRow_spec m i, ?_, ?_,
      Mat.get?_of_lt m i.isLt j.isLt, hE, rfl⟩
    · rw [Vec.read_in_range col i.isLt]; exact congrArg some (hE i)
    · rw [Vec.read_in_range (m.data i) j.isLt]; rfl
  · intro K T _ m i
    rw [Mat.getRow_spec m i, Mat.index_of_lt m i.isLt]

/-! ## Equality -/

theorem Vec.ne_eq_false_iff {N : Nat} {T0 T1 : Type} (sne : T0 → T1 → Bool) (a : Vec N T0)
    (b : Vec N T1) :
    Vec.ne sne a b = false ↔ ∀ j : Fin N, sne (a.comps j) (b.comps j) = false := by
  simp [Vec.ne, List.any_eq_false]

theorem Vec.scalarNe_eq_false_iff {N : Nat} {T : Type} [DecidableEq T] (a b : Vec N T) :
    Vec.ne scalarNe a b = false ↔ ∀ j : Fin N, a.comps j = b.comps j := by
  simp [Vec.ne_eq_false_iff, scalarNe]

/-- On a square extent the early-exit loop of `operator==` over any list of in-range
indices returns, and returns `true` exactly when no listed pair of stored vectors
compares unequal. -/
theorem Mat.eq_loop_spec {K : Nat} {T0 T1 : Type} (sne : T0 → T1 → Bool) (a : Mat K K T0)
    (b : Mat K K T1) (l : List Nat) (hl : ∀ i ∈ l, i < K) :
    ∃ r, l.foldr
        (fun i rest =>
          (a.index i).bind (fun ai => (b.index i).bind (fun bi =>
            if Vec.ne sne ai bi then some false else rest)))
        (some true) = some r ∧
      (r = true ↔ ∀ i ∈ l, ∀ h : i < K, Vec.ne sne (a.data ⟨i, h⟩) (b.data ⟨i, h⟩) = false) := by
  induction l with
  | nil => exact ⟨true, rfl, by simp⟩
  | cons x xs ih =>
    have hx : x < K := hl x (List.mem_cons_self x xs)
    obtain ⟨r, hr, hiff⟩ := ih (fun i hi => hl i (List.mem_cons_of_mem x hi))
    rw [List.foldr_cons, hr, Mat.index_of_lt a hx, Mat.index_of_lt b hx]
    by_cases hne : Vec.ne sne (a.data ⟨x, hx⟩) (b.data ⟨x, hx⟩) = true
    · refine ⟨false, by simp [hne], ?_⟩
      constructor
      · intro h; exact absurd h (by decide)
      · intro h
        have := h x (List.mem_cons_self x xs) hx
        rw [hne] at this
        exact absurd this (by decide)
    · have hfalse : Vec.ne sne (a.data ⟨x, hx⟩) (b.data ⟨x, hx⟩) = false := by
        simpa using hne
      refine ⟨r, by simp [hfalse], ?_⟩
      rw [hiff]
      constructor
      · intro h i hi hiM
        rcases List.mem_cons.mp hi with rfl | hi'
        · exact hfalse
        · exact h i hi' hiM
      · intro h i hi hiM
        exact h i (List.mem_cons_of_mem x hi) hiM

/-- On a square extent the operator `==` returns, and returns `true` exactly when no pair
of stored vectors `a[i]`, `b[i]` compares unequal. -/
theorem Mat.eq_spec {K : Nat} {T0 T1 : Type} (sne : T0 → T1 → Bool) (a : Mat K K T0)
    (b : Mat K K T1) :
    ∃ r, Mat.eq sne a b = some r ∧
      (r = true ↔ ∀ i : Fin K, Vec.ne sne (a.data i) (b.data i) = false) := by
  obtain ⟨r, hr, hiff⟩ := Mat.eq_loop_spec sne a b (List.range K)
    (fun i hi => List.mem_range.mp hi)
  refine ⟨r, hr, ?_⟩
  rw [hiff]
  constructor
  · intro h i
    exact h i.val (List.mem_range.mpr i.isLt) i.isLt
  · intro h i _ hiM
    exact h ⟨i, hiM⟩

/-- C6 (code defect): on square extents, over a scalar type with decidable, reflexive
equality (every integer type), `A == B` returns, and returns `true` if and only if every
pair of rows `A[i]`, `B[i]` compares equal, that is if and only if every entry `A[i][j]`
equals `B[i][j]`; consequently `A == A` is `true`. On the non-square `Mat<2,3,int>`
`A == A` has no defined result: `a[0]` goes through `operator[]`, whose `Col&` is a
`Vec<2,int>&` over a stored `Vec<3,int>`. -/
theorem Mat.eq_iff_rows_equal_on_square_only :
    (∀ (K : Nat) (T : Type) [DecidableEq T] (a b : Mat K K T),
      (∃ r, Mat.eq scalarNe a b = some r ∧
        (r = true ↔ ∀ i : Fin K, Vec.ne scalarNe (a.data i) (b.data i) = false) ∧
        (r = true ↔ ∀ (i j : Fin K), a.entry i j = b.entry i j)) ∧
      Mat.eq scalarNe a a = some true) ∧
    Mat.eq scalarNe (⟨![⟨![1, 2, 3]⟩, ⟨![4, 5, 6]⟩]⟩ : Mat 2 3 Int) (⟨![⟨![1, 2, 3]⟩, ⟨![4, 5, 6]⟩]⟩ : Mat 2 3 Int) = none ∧
    (⟨![⟨![1, 2, 3]⟩, ⟨![4, 5, 6]⟩]⟩ : Mat 2 3 Int).index 0 = none := by
  refine ⟨?_, rfl, rfl⟩
  intro K T _ a b
  have key : ∀ x y : Mat K K T, ∃ r, Mat.eq scalarNe x y = some r ∧
      (r = true ↔ ∀ i : Fin K, Vec.ne scalarNe (x.data i) (y.data i) = false) ∧
      (r = true ↔ ∀ (i j : Fin K), x.entry i j = y.entry i j) := by
    intro x y
    obtain ⟨r, hr, hiff⟩ := Mat.eq_spec scalarNe x y
    refine ⟨r, hr, hiff, ?_⟩
    rw [hiff]
    simp only [Vec.scalarNe_eq_false_iff, Mat.entry]
  refine ⟨key a b, ?_⟩
  obtain ⟨r, hr, _, hiff⟩ := key a a
  have : r = true := hiff.mpr (fun _ _ => rfl)
  rw [hr, this]

/-! ## Compound assignment -/

/-- On a square extent every operator generated by `ESEED_MAT_ASSN_MM` succeeds, stores in
`a` the narrowed `a[i][j] op b[i][j]` at every entry and leaves `b` unchanged. -/
theorem Mat.assnMM_spec {K : Nat} {T R : Type} (op : T → T → R) (narrow : R → T)
    (a b : Mat K K T) :
    ∃ a', Mat.assnMM op narrow a b = some (a', b) ∧
      ∀ (i j : Fin K), a'.entry i j = narrow (op (a.entry i j) (b.entry i j)) := by
  obtain ⟨s, hs, hb, hrows⟩ := forLoop_inv
    (fun n (s : Mat K K T × Mat K K T) =>
      s.2 = b ∧ ∀ r : Fin K, s.1.data r =
        if r.val < n then Vec.assign op narrow (a.data r) (b.data r) else a.data r)
    K
    (fun i s =>
      (s.1.index i).bind (fun ai => (s.2.index i).bind (fun bi =>
        (s.1.setIndex? i (Vec.assign op narrow ai bi)).map (fun a' => (a', s.2)))))
    (a, b) ⟨rfl, by intro r; simp⟩
    (by
      intro n t hn hP
      obtain ⟨hb, hrows⟩ := hP
      have hcur : t.1.data ⟨n, hn⟩ = a.data ⟨n, hn⟩ := by simpa using hrows ⟨n, hn⟩
      refine ⟨(⟨Function.update t.1.data ⟨n, hn⟩
          (Vec.assign op narrow (a.data ⟨n, hn⟩) (b.data ⟨n, hn⟩))⟩, t.2), ?_, hb, ?_⟩
      · simp [Mat.index_of_lt t.1 hn, Mat.index_of_lt b hn, Mat.setIndex?_square,
          Mat.setRow?_of_lt t.1 hn, hcur, hb]
      · intro r
        by_cases hr : r = ⟨n, hn⟩
        · subst hr; simp
        · have hne : r.val ≠ n := fun h => hr (Fin.ext h)
          show Function.update t.1.data ⟨n, hn⟩ _ r = _
          rw [Function.update_noteq hr, hrows r]
          by_cases hlt : r.val < n
          · simp [hlt, Nat.lt_succ_of_lt hlt]
          · have : ¬ r.val < n + 1 := by omega
            simp [hlt, this])
  refine ⟨s.1, ?_, ?_⟩
  · have hpair : s = (s.1, b) := by rw [← hb]
    rw [← hpair]
    exact hs
  · intro i j
    simp [Mat.entry, hrows i, Vec.assign]

/-- Counterexample to C9 as stated: over the 8-bit unsigned type, whose `+` is computed
in `int`, with `A = (200)` and `B = (100)` (1x1), `A += B` leaves `A = (44)` while
`A_old + B` is `(300)`: the updated `A` is not the result of the binary operator. -/
theorem Mat.assnMM_ne_binMM_uint8 :
    ∃ a' s,
      Mat.assnMM (fun x y : Nat => x + y) (wrapNarrow 8)
        (⟨![⟨![200]⟩]⟩ : Mat 1 1 Nat) ⟨![⟨![100]⟩]⟩ = some (a', ⟨![⟨![100]⟩]⟩) ∧
      Mat.binMM (fun x y : Nat => x + y)
        (⟨![⟨![200]⟩]⟩ : Mat 1 1 Nat) (⟨![⟨![100]⟩]⟩ : Mat 1 1 Nat) = some s ∧
      a'.entry 0 0 = 44 ∧ s.entry 0 0 = 300 ∧ a' ≠ s := by
  obtain ⟨a', ha', haE⟩ := Mat.assnMM_spec (fun x y : Nat => x + y) (wrapNarrow 8)
    (⟨![⟨![200]⟩]⟩ : Mat 1 1 Nat) ⟨![⟨![100]⟩]⟩
  obtain ⟨s, hs, hsE⟩ := Mat.binMM_spec (fun x y : Nat => x + y)
    (⟨![⟨![200]⟩]⟩ : Mat 1 1 Nat) (⟨![⟨![100]⟩]⟩ : Mat 1 1 Nat)
  have h44 : a'.entry 0 0 = 44 := by rw [haE]; decide
  have h300 : s.entry 0 0 = 300 := by rw [hsE]; decide
  refine ⟨a', s, ha', hs, h44, h300, ?_⟩
  intro h
  rw [h, h300] at h44
  exact absurd h44 (by decide)

/-- C9 (amended): on square extents, for every scalar operator `op` with result type `R`
(each generated `op=` has the same body) and every pair of same-extent matrices `A`, `B`
over the same scalar type `T`, `A op= B` succeeds, leaves `B` unchanged and leaves in
`A` (the object the returned reference designates) at every entry the result
`A_old[i][j] op B[i][j]` of the binary `A_old op B` converted back to `T`; when the
result type of `op` is `T` itself (no conversion), the updated `A` is exactly the matrix
that the binary `A_old op B` produces. -/
theorem Mat.assnMM_eq_narrowed_binMM :
    (∀ (K : Nat) (T R : Type) [Zero R] (op : T → T → R) (narrow : R → T) (a b : Mat K K T),
      ∃ a' s, Mat.assnMM op narrow a b = some (a', b) ∧ Mat.binMM op a b = some s ∧
        (∀ (i j : Fin K), s.entry i j = op (a.entry i j) (b.entry i j)) ∧
        (∀ (i j : Fin K), a'.entry i j = narrow (s.entry i j))) ∧
    (∀ (K : Nat) (T : Type) [Zero T] (op : T → T → T) (a b : Mat K K T),
      ∃ a', Mat.assnMM op (fun c => c) a b = some (a', b) ∧ Mat.binMM op a b = some a' ∧
        ∀ (i j : Fin K), a'.entry i j = op (a.entry i j) (b.entry i j)) := by
  constructor
  · intro K T R _ op narrow a b
    obtain ⟨a', ha', haE⟩ := Mat.assnMM_spec op narrow a b
    obtain ⟨s, hs, hsE⟩ := Mat.binMM_spec op a b
    exact ⟨a', s, ha', hs, hsE, fun i j => by rw [haE, hsE]⟩
  · intro K T _ op a b
    obtain ⟨a', ha', haE⟩ := Mat.assnMM_spec op (fun c => c) a b
    obtain ⟨s, hs, hsE⟩ := Mat.binMM_spec op a b
    have hsame : s = a' := Mat.ext_entry (fun i j => by rw [hsE, haE])
    exact ⟨a', ha', hsame ▸ hs, haE⟩

/-! ## Dot product -/

/-- The loop of `dot` succeeds and accumulates the products in index order. -/
theorem dot_spec {L : Nat} {T : Type} [Semiring T] (a b : Vec L T) :
    dot a b = some (∑ i : Fin L, a.comps i * b.comps i) := by
  unfold dot
  obtain ⟨out, hout, hP⟩ := forLoop_inv
    (fun n (out : T) => out = ∑ i in Finset.range n,
      if h : i < L then a.comps ⟨i, h⟩ * b.comps ⟨i, h⟩ else 0)
    L
    (fun i out => (a.get? i).bind (fun x => (b.get? i).bind (fun y => some (out + x * y))))
    0 (by simp)
    (by
      intro n t hn hP
      refine ⟨t + a.comps ⟨n, hn⟩ * b.comps ⟨n, hn⟩, ?_, ?_⟩
      · simp [Vec.read_in_range a hn, Vec.read_in_range b hn]
      · beta_reduce
        rw [Finset.sum_range_succ, ← hP]; simp [hn])
  rw [hout, hP]
  congr 1
  rw [← Fin.sum_univ_eq_sum_range
    (fun i => if h : i < L then a.comps ⟨i, h⟩ * b.comps ⟨i, h⟩ else 0) L]
  apply Finset.sum_congr rfl
  intro i _
  simp [i.isLt]

/-- C10: for every pair of vectors `a`, `b` of equal length `L`, `dot(a, b)` returns the
sum over `i < L` of `a[i] * b[i]`, accumulated from `0`; in particular
`dot((1,2,3), (4,5,6)) = 32`. -/
theorem dot_eq_sum_and_example :
    (∀ (L : Nat) (T : Type) [Semiring T] (a b : Vec L T),
      dot a b = some (∑ i : Fin L, a.comps i * b.comps i)) ∧
    dot (⟨![1, 2, 3]⟩ : Vec 3 Int) ⟨![4, 5, 6]⟩ = some 32 :=
  ⟨fun _ _ _ a b => dot_spec a b, by decide⟩

/-- C7: the default-constructed matrix is the zero matrix, every entry `(i, j)` with
`i < M`, `j < N` is `0`. -/
theorem Mat.default_entry (M N : Nat) (T : Type) [Zero T] (i : Fin M) (j : Fin N) :
    (Mat.default M N T).entry i j = 0 := rfl

/-! ## Cross product -/

/-- C11: for every pair of length-3 vectors `a`, `b`, `cross(a, b)` is the standard cross
product `(a.y*b.z - a.z*b.y, a.z*b.x - a.x*b.z, a.x*b.y - a.y*b.x)`, `x`, `y`, `z`
being the components 0, 1, 2; in particular `cross((1,0,0), (0,1,0)) = (0,0,1)`. -/
theorem cross_is_standard_formula :
    (∀ (T : Type) [Sub T] [Mul T] (a b : Vec 3 T),
      (cross a b).get? 0 = some (a.comps 1 * b.comps 2 - a.comps 2 * b.comps 1) ∧
      (cross a b).get? 1 = some (a.comps 2 * b.comps 0 - a.comps 0 * b.comps 2) ∧
      (cross a b).get? 2 = some (a.comps 0 * b.comps 1 - a.comps 1 * b.comps 0)) ∧
    cross (Vec.mk3 (1 : Int) 0 0) (Vec.mk3 0 1 0) = Vec.mk3 0 0 1 := by
  refine ⟨fun T _ _ a b => ⟨rfl, rfl, rfl⟩, ?_⟩
  apply Vec.ext
  funext i
  fin_cases i <;> rfl

/-- The components of the cross product, by position. -/
theorem cross_comps {T : Type} [Sub T] [Mul T] (a b : Vec 3 T) :
    (cross a b).comps 0 = a.comps 1 * b.comps 2 - a.comps 2 * b.comps 1 ∧
    (cross a b).comps 1 = a.comps 2 * b.comps 0 - a.comps 0 * b.comps 2 ∧
    (cross a b).comps 2 = a.comps 0 * b.comps 1 - a.comps 1 * b.comps 0 :=
  ⟨rfl, rfl, rfl⟩

/-- C19: over a commutative ring of scalars (the integers, the integers modulo `2 ^ w`),
for all length-3 vectors `a`, `b`: `dot(a, cross(a, b)) = 0`, `dot(b, cross(a, b)) = 0`,
`cross(b, a)` is the componentwise negation of `cross(a, b)`, and `cross(a, a)` is the
zero vector. -/
theorem cross_orthogonal_antisymmetric {T : Type} [CommRing T] (a b : Vec 3 T) :
    dot a (cross a b) = some 0 ∧ dot b (cross a b) = some 0 ∧
    cross b a = Vec.map (fun c => -c) (cross a b) ∧ cross a a = Vec.zero := by
  obtain ⟨h0, h1, h2⟩ := cross_comps a b
  obtain ⟨g0, g1, g2⟩ := cross_comps b a
  obtain ⟨k0, k1, k2⟩ := cross_comps a a
  refine ⟨?_, ?_, ?_, ?_⟩
  · rw [dot_spec, Fin.sum_univ_three, h0, h1, h2]
    congr 1
    ring
  · rw [dot_spec, Fin.sum_univ_three, h0, h1, h2]
    congr 1
    ring
  · apply Vec.ext
    funext i
    fin_cases i
    · show (cross b a).comps 0 = -(cross a b).comps 0
      rw [g0, h0]; ring
    · show (cross b a).comps 1 = -(cross a b).comps 1
      rw [g1, h1]; ring
    · show (cross b a).comps 2 = -(cross a b).comps 2
      rw [g2, h2]; ring
  · apply Vec.ext
    funext i
    fin_cases i
    · show (cross a a).comps 0 = 0
      rw [k0]; ring
    · show (cross a a).comps 1 = 0
      rw [k1]; ring
    · show (cross a a).comps 2 = 0
      rw [k2]; ring

/-! ## Conversion round trips between square extents -/

/-- C12: for every 3x3 integer matrix `A`, converting `A` to `Mat<2,2,int>` and the result
back to `Mat<3,3,int>` succeeds and yields `B` with `B[i][j] = A[i][j]` for `i < 2` and
`j < 2` and `B[i][j] = 0` at every other position; `B = A` exactly when the third row
and the third column of `A` are zero. -/
theorem Mat.convert_narrow_then_widen (A : Mat 3 3 Int) :
    ∃ (S : Mat 2 2 Int) (B : Mat 3 3 Int),
      Mat.convert 2 2 (fun c : Int => c) A = some S ∧
      Mat.convert 3 3 (fun c : Int => c) S = some B ∧
      (∀ i j : Fin 3, B.entry i j = if i.val < 2 ∧ j.val < 2 then A.entry i j else 0) ∧
      (B = A ↔ ∀ i j : Fin 3, (i.val = 2 ∨ j.val = 2) → A.entry i j = 0) := by
  obtain ⟨S, hS, hSE⟩ := Mat.convert_square_entry 2 (fun c : Int => c) A
  obtain ⟨B, hB, hBE⟩ := Mat.convert_square_entry 3 (fun c : Int => c) S
  have hentry : ∀ i j : Fin 3,
      B.entry i j = if i.val < 2 ∧ j.val < 2 then A.entry i j else 0 := by
    intro i j
    rw [hBE i j]
    by_cases h : i.val < 2 ∧ j.val < 2
    · have h3 : (⟨i.val, h.1⟩ : Fin 2).val < 3 ∧ (⟨j.val, h.2⟩ : Fin 2).val < 3 :=
        ⟨i.isLt, j.isLt⟩
      rw [dif_pos h, if_pos h, hSE, dif_pos h3]
    · rw [dif_neg h, if_neg h]
  refine ⟨S, B, hS, hB, hentry, ?_⟩
  constructor
  · intro hBA i j hij
    have := hentry i j
    rw [hBA] at this
    have hn : ¬ (i.val < 2 ∧ j.val < 2) := by omega
    rw [if_neg hn] at this
    exact this
  · intro hz
    apply Mat.ext_entry
    intro i j
    rw [hentry i j]
    by_cases h : i.val < 2 ∧ j.val < 2
    · rw [if_pos h]
    · rw [if_neg h]
      have hi := i.isLt
      have hj := j.isLt
      exact (hz i j (by omega)).symm

/-- On a square extent the operator `==` on a matrix and itself returns `true`, over a
scalar type with decidable, reflexive equality. -/
theorem Mat.eq_self {K : Nat} {T : Type} [DecidableEq T] (a : Mat K K T) :
    Mat.eq scalarNe a a = some true := by
  obtain ⟨r, hr, hiff⟩ := Mat.eq_spec scalarNe a a
  have : r = true :=
    hiff.mpr (fun i => (Vec.scalarNe_eq_false_iff (a.data i) (a.data i)).mpr (fun _ => rfl))
  rw [hr, this]

/-- C20: for `K ≤ K1` and every `K x K` matrix `A`, converting `A` to `Mat<K1,K1,T>` and
the result back to `Mat<K,K,T>` succeeds and yields `A` itself (so `==` on the result and
`A` returns `true`), and the intermediate `K1 x K1` matrix is zero outside the leading
`K x K` block. -/
theorem Mat.convert_widen_then_narrow {K K1 : Nat} {T : Type} [Zero T] [DecidableEq T]
    (A : Mat K K T) (hK : K ≤ K1) :
    ∃ (W : Mat K1 K1 T) (B : Mat K K T),
      Mat.convert K1 K1 (fun c : T => c) A = some W ∧
      Mat.convert K K (fun c : T => c) W = some B ∧
      B = A ∧ Mat.eq scalarNe B A = some true ∧
      (∀ i j : Fin K1, ¬ (i.val < K ∧ j.val < K) → W.entry i j = 0) := by
  obtain ⟨W, hW, hWE⟩ := Mat.convert_square_entry K1 (fun c : T => c) A
  obtain ⟨B, hB, hBE⟩ := Mat.convert_square_entry K (fun c : T => c) W
  have hBA : B = A := by
    apply Mat.ext_entry
    intro i j
    have h1 : i.val < K1 ∧ j.val < K1 :=
      ⟨Nat.lt_of_lt_of_le i.isLt hK, Nat.lt_of_lt_of_le j.isLt hK⟩
    have h2 : (⟨i.val, h1.1⟩ : Fin K1).val < K ∧ (⟨j.val, h1.2⟩ : Fin K1).val < K :=
      ⟨i.isLt, j.isLt⟩
    rw [hBE i j, dif_pos h1, hWE, dif_pos h2]
  refine ⟨W, B, hW, hB, hBA, ?_, ?_⟩
  · rw [hBA]; exact Mat.eq_self A
  · intro i j hij
    rw [hWE i j, dif_neg hij]

theorem Mat.convert_widen_then_narrow_witness :
    2 ≤ 3 ∧
    ∃ (W : Mat 3 3 Int) (B : Mat 2 2 Int),
      Mat.convert 3 3 (fun c : Int => c) (⟨![⟨![1, 2]⟩, ⟨![3, 4]⟩]⟩ : Mat 2 2 Int) = some W ∧
      Mat.convert 2 2 (fun c : Int => c) W = some B ∧
      B = ⟨![⟨![1, 2]⟩, ⟨![3, 4]⟩]⟩ ∧
      Mat.eq scalarNe B ⟨![⟨![1, 2]⟩, ⟨![3, 4]⟩]⟩ = some true ∧
      (∀ i j : Fin 3, ¬ (i.val < 2 ∧ j.val < 2) → W.entry i j = 0) :=
  ⟨by decide, Mat.convert_widen_then_narrow _ (by decide)⟩

/-! ## Predicates over all components -/

/-- A Boolean known through an equivalence is the decision of that proposition. -/
theorem bool_eq_decide_of_iff {r : Bool} {P : Prop} [Decidable P] (h : r = true ↔ P) :
    r = decide P := by
  by_cases hP : P
  · rw [decide_eq_true hP]; exact h.mpr hP
  · rw [decide_eq_false hP]
    cases r with
    | false => rfl
    | true => exact absurd (h.mp rfl) hP

/-- The early-exit loop of `allinf` / `allnan` over a list of in-range indices returns,
and returns `true` exactly when the predicate holds at every listed index. -/
theorem allPred_loop_spec {L : Nat} {T : Type} (pred : T → Bool) (v : Vec L T)
    (l : List Nat) (hl : ∀ i ∈ l, i < L) :
    ∃ r, l.foldr
        (fun i rest => (v.get? i).bind (fun c => if !pred c then some false else rest))
        (some true) = some r ∧
      (r = true ↔ ∀ i ∈ l, ∀ h : i < L, pred (v.comps ⟨i, h⟩) = true) := by
  induction l with
  | nil => exact ⟨true, rfl, by simp⟩
  | cons k ks ih =>
    have hk : k < L := hl k (List.mem_cons_self k ks)
    obtain ⟨r, hr, hiff⟩ := ih (fun i hi => hl i (List.mem_cons_of_mem k hi))
    rw [List.foldr_cons, hr, Vec.read_in_range v hk]
    by_cases hp : pred (v.comps ⟨k, hk⟩) = true
    · refine ⟨r, by simp [hp], ?_⟩
      rw [hiff]
      constructor
      · intro h i hi hiL
        rcases List.mem_cons.mp hi with rfl | hi'
        · exact hp
        · exact h i hi' hiL
      · intro h i hi hiL
        exact h i (List.mem_cons_of_mem k hi) hiL
    · have hpf : pred (v.comps ⟨k, hk⟩) = false := by simpa using hp
      refine ⟨false, by simp [hpf], ?_⟩
      constructor
      · intro h; exact absurd h (by decide)
      · intro h
        exact absurd (h k (List.mem_cons_self k ks) hk) hp

/-- The early-exit loop of `anyinf` / `anynan` over a list of in-range indices returns,
and returns `true` exactly when the predicate holds at some listed index. -/
theorem anyPred_loop_spec {L : Nat} {T : Type} (pred : T → Bool) (v : Vec L T)
    (l : List Nat) (hl : ∀ i ∈ l, i < L) :
    ∃ r, l.foldr
        (fun i rest => (v.get? i).bind (fun c => if pred c then some true else rest))
        (some false) = some r ∧
      (r = true ↔ ∃ i ∈ l, ∃ h : i < L, pred (v.comps ⟨i, h⟩) = true) := by
  induction l with
  | nil => exact ⟨false, rfl, by simp⟩
  | cons k ks ih =>
    have hk : k < L := hl k (List.mem_cons_self k ks)
    obtain ⟨r, hr, hiff⟩ := ih (fun i hi => hl i (List.mem_cons_of_mem k hi))
    rw [List.foldr_cons, hr, Vec.read_in_range v hk]
    by_cases hp : pred (v.comps ⟨k, hk⟩) = true
    · refine ⟨true, by simp [hp], ?_⟩
      constructor
      · intro _; exact ⟨k, List.mem_cons_self k ks, hk, hp⟩
      · intro _; rfl
    · have hpf : pred (v.comps ⟨k, hk⟩) = false := by simpa using hp
      refine ⟨r, by simp [hpf], ?_⟩
      rw [hiff]
      constructor
      · rintro ⟨i, hi, hiL, hpi⟩
        exact ⟨i, List.mem_cons_of_mem k hi, hiL, hpi⟩
      · rintro ⟨i, hi, hiL, hpi⟩
        rcases List.mem_cons.mp hi with rfl | hi'
        · exact absurd hpi hp
        · exact ⟨i, hi', hiL, hpi⟩

/-- The shape of `allinf` / `allnan` decides whether every component satisfies the
predicate. -/
theorem allPred_spec {L : Nat} {T : Type} (pred : T → Bool) (v : Vec L T) :
    allPred pred v = some (decide (∀ i : Fin L, pred (v.comps i) = true)) := by
  obtain ⟨r, hr, hiff⟩ := allPred_loop_spec pred v (List.range L)
    (fun i hi => List.mem_range.mp hi)
  have hiff' : r = true ↔ ∀ i : Fin L, pred (v.comps i) = true := by
    rw [hiff]
    constructor
    · intro h i; exact h i.val (List.mem_range.mpr i.isLt) i.isLt
    · intro h i _ hiL; exact h ⟨i, hiL⟩
  unfold allPred
  rw [hr, bool_eq_decide_of_iff hiff']

/-- The shape of `anyinf` / `anynan` decides whether some component satisfies the
predicate. -/
theorem anyPred_spec {L : Nat} {T : Type} (pred : T → Bool) (v : Vec L T) :
    anyPred pred v = some (decide (∃ i : Fin L, pred (v.comps i) = true)) := by
  obtain ⟨r, hr, hiff⟩ := anyPred_loop_spec pred v (List.range L)
    (fun i hi => List.mem_range.mp hi)
  have hiff' : r = true ↔ ∃ i : Fin L, pred (v.comps i) = true := by
    rw [hiff]
    constructor
    · rintro ⟨i, _, hiL, hp⟩; exact ⟨⟨i, hiL⟩, hp⟩
    · rintro ⟨i, hp⟩; exact ⟨i.val, List.mem_range.mpr i.isLt, i.isLt, hp⟩
  unfold anyPred
  rw [hr, bool_eq_decide_of_iff hiff']

/-- C13: with `isnan` (and `isinf`) a predicate on components, for every vector `v` of
length `L`: `allnan(v)` returns `true` iff every component is NaN and `anynan(v)` returns
`true` iff at least one component is NaN, likewise `allinf` / `anyinf`; in particular
for `v = (NaN, 1.0)`, `anynan(v) = true` and `allnan(v) = false`. -/
theorem allnan_anynan_allinf_anyinf_spec :
    (∀ (L : Nat) (T : Type) (isnan isinf : T → Bool) (v : Vec L T),
      allnan isnan v = some (decide (∀ i : Fin L, isnan (v.comps i) = true)) ∧
      anynan isnan v = some (decide (∃ i : Fin L, isnan (v.comps i) = true)) ∧
      allinf isinf v = some (decide (∀ i : Fin L, isinf (v.comps i) = true)) ∧
      anyinf isinf v = some (decide (∃ i : Fin L, isinf (v.comps i) = true))) ∧
    anynan FpClass.isnan (⟨![FpClass.nan, FpClass.finite 1]⟩ : Vec 2 FpClass) = some true ∧
    allnan FpClass.isnan (⟨![FpClass.nan, FpClass.finite 1]⟩ : Vec 2 FpClass) = some false :=
  ⟨fun _ _ isnan isinf v =>
      ⟨allPred_spec isnan v, anyPred_spec isnan v, allPred_spec isinf v, anyPred_spec isinf v⟩,
    by decide, by decide⟩

/-! ## String form -/

theorem intercalate_go_snoc (sep : String) (l : List String) (acc a : String) :
    String.intercalate.go acc sep (l ++ [a]) = String.intercalate.go acc sep l ++ sep ++ a := by
  induction l generalizing acc with
  | nil => simp [String.intercalate.go]
  | cons c cs ih => simp [String.intercalate.go, ih]

/-- Joining with a separator, one more string at the end: nothing is put before the
first string, the separator before every later one. -/
theorem intercalate_snoc (sep : String) (l : List String) (a : String) :
    sep.intercalate (l ++ [a]) = if l = [] then a else sep.intercalate l ++ sep ++ a := by
  cases l with
  | nil => simp [String.intercalate, String.intercalate.go]
  | cons c cs => simp [String.intercalate, intercalate_go_snoc]

/-- C14: for every `M x N` matrix `m` (in particular for `M ≥ 1`), `toString()` returns
`"["`, then the string forms of the rows `m[0], ..., m[M-1]` in index order joined by
`", "` (a separator between consecutive rows only, none trailing), then `"]"`: a
function of the rows' string forms alone. -/
theorem Mat.toString_spec {M N : Nat} {T : Type} (vecToString : Vec N T → String)
    (m : Mat M N T) :
    Mat.toString vecToString m =
      some ("[" ++ ", ".intercalate (List.ofFn (fun i : Fin M => vecToString (m.data i)))
        ++ "]") := by
  let rowStr : Nat → String := fun i => if h : i < M then vecToString (m.data ⟨i, h⟩) else ""
  obtain ⟨out, hout, hP⟩ := forLoop_inv
    (fun n (out : String) =>
      out = "[" ++ ", ".intercalate ((List.range n).map rowStr)
        ++ (if 0 < n ∧ n < M then ", " else ""))
    M
    (fun i out =>
      (m.row? i).map (fun r =>
        let out1 := out ++ vecToString r
        if i < M - 1 then out1 ++ ", " else out1))
    "["
    (by simp [String.intercalate])
    (by
      intro n t hn hP
      have hrow : rowStr n = vecToString (m.data ⟨n, hn⟩) := by simp [rowStr, hn]
      refine ⟨if n < M - 1 then t ++ vecToString (m.data ⟨n, hn⟩) ++ ", "
          else t ++ vecToString (m.data ⟨n, hn⟩),
        by beta_reduce; rw [Mat.row?_of_lt m hn]; rfl, ?_⟩
      beta_reduce
      rw [List.range_succ, List.map_append, List.map_singleton, intercalate_snoc, hrow, hP]
      by_cases h0 : n = 0
      · subst h0
        by_cases h1 : 0 < M - 1
        · have h1' : (0 < 0 + 1 ∧ 0 + 1 < M) := ⟨by omega, by omega⟩
          simp [h1, h1', String.intercalate, String.append_assoc]
        · have h1' : ¬ (1 < M) := by omega
          simp [h1, h1', String.intercalate]
      · have hne : (List.range n).map rowStr ≠ [] := by
          intro h
          have := congrArg List.length h
          simp at this
          exact h0 this
        have hpos : 0 < n ∧ n < M := ⟨Nat.pos_of_ne_zero h0, hn⟩
        by_cases h1 : n < M - 1
        · have h1' : (0 < n + 1 ∧ n + 1 < M) := ⟨by omega, by omega⟩
          simp [h1, h1', hpos, hne, String.append_assoc]
        · have h1' : ¬ (n + 1 < M) := by omega
          simp [h1, h1', hpos, hne, String.append_assoc])
  have hrows : (List.range M).map rowStr = List.ofFn (fun i : Fin M => vecToString (m.data i)) := by
    apply List.ext_getElem
    · simp
    · intro k h1 h2
      have hk : k < M := by simpa using h1
      simp [rowStr, hk]
  have hM : ¬ (0 < M ∧ M < M) := by omega
  unfold Mat.toString
  rw [hout, hP, hrows, if_neg hM]
  simp

/-! ## Broadcast and unary operators -/

/-- On a square extent every operator generated by `ESEED_MAT_BIN_SM` succeeds and
applies the scalar operator to the broadcast scalar and each entry, in this order. -/
theorem Mat.binSM_spec {K : Nat} {T0 T1 R : Type} [Zero R] (op : T0 → T1 → R)
    (a : T0) (b : Mat K K T1) :
    ∃ out, Mat.binSM op a b = some out ∧
      ∀ (i j : Fin K), out.entry i j = op a (b.entry i j) := by
  obtain ⟨out, hout, hrows⟩ := forLoop_setRow
    (fun r => Vec.broadcastL op a (b.data r))
    (fun i out => (b.index i).bind (fun bi => out.setIndex? i (Vec.broadcastL op a bi)))
    K (Nat.le_refl K)
    (by intro i h _ out; simp [Mat.index_of_lt b h, Mat.setIndex?_square])
    (Mat.default K K R)
  refine ⟨out, hout, ?_⟩
  intro i j
  simp [Mat.entry, hrows i, Vec.broadcastL]

/-- On a square extent every operator generated by `ESEED_MAT_UN` succeeds and applies
the scalar operator to each entry. -/
theorem Mat.un_spec {K : Nat} {T : Type} [Zero T] (op : T → T) (m : Mat K K T) :
    ∃ out, Mat.un op m = some out ∧
      ∀ (i j : Fin K), out.entry i j = op (m.entry i j) := by
  obtain ⟨out, hout, hrows⟩ := forLoop_setRow
    (fun r => Vec.map op (m.data r))
    (fun i out => (m.index i).bind (fun r => out.setIndex? i (Vec.map op r)))
    K (Nat.le_refl K)
    (by intro i h _ out; simp [Mat.index_of_lt m h, Mat.setIndex?_square])
    (Mat.default K K T)
  refine ⟨out, hout, ?_⟩
  intro i j
  simp [Mat.entry, hrows i, Vec.map]

/-- C15 (code defect): on square extents the two broadcast shapes keep their operand
order for every scalar operator: entry `(i, j)` of `A op s` is `A[i][j] op s` and entry
`(i, j)` of `s op A` is `s op A[i][j]`; for `-` over a ring of scalars (the integers, the
integers modulo `2 ^ w`) entry `(i, j)` of `A - s` is `A[i][j] - s`, entry `(i, j)` of
`s - A` is `s - A[i][j]`, and `s - A` is the unary negation `-(A - s)`. On the non-square
`Mat<2,3,int>` none of `A - s`, `s - A` and `-A` has a defined result. -/
theorem Mat.broadcast_operand_order_on_square_only :
    (∀ (K : Nat) (T0 T1 R : Type) [Zero R] (op : T0 → T1 → R) (A : Mat K K T0) (s : T1),
      ∃ out, Mat.binMS op A s = some out ∧
        ∀ (i j : Fin K), out.entry i j = op (A.entry i j) s) ∧
    (∀ (K : Nat) (T0 T1 R : Type) [Zero R] (op : T0 → T1 → R) (s : T0) (A : Mat K K T1),
      ∃ out, Mat.binSM op s A = some out ∧
        ∀ (i j : Fin K), out.entry i j = op s (A.entry i j)) ∧
    (∀ (K : Nat) (T : Type) [Ring T] (A : Mat K K T) (s : T),
      ∃ D E, Mat.binMS (fun c d => c - d) A s = some D ∧
        Mat.binSM (fun c d => c - d) s A = some E ∧
        (∀ (i j : Fin K), D.entry i j = A.entry i j - s) ∧
        (∀ (i j : Fin K), E.entry i j = s - A.entry i j) ∧
        Mat.un (fun c => -c) D = some E) ∧
    Mat.binMS (fun c d : Int => c - d) (⟨![⟨![1, 2, 3]⟩, ⟨![4, 5, 6]⟩]⟩ : Mat 2 3 Int) 1 = none ∧
    Mat.binSM (fun c d : Int => c - d) 1 (⟨![⟨![1, 2, 3]⟩, ⟨![4, 5, 6]⟩]⟩ : Mat 2 3 Int) = none ∧
    Mat.un (fun c : Int => -c) (⟨![⟨![1, 2, 3]⟩, ⟨![4, 5, 6]⟩]⟩ : Mat 2 3 Int) = none := by
  refine ⟨fun _ _ _ _ _ op A s => Mat.binMS_spec op A s,
    fun _ _ _ _ _ op s A => Mat.binSM_spec op s A, ?_, rfl, rfl, rfl⟩
  intro K T _ A s
  obtain ⟨D, hD, hDE⟩ := Mat.binMS_spec (fun c d : T => c - d) A s
  obtain ⟨E, hE, hEE⟩ := Mat.binSM_spec (fun c d : T => c - d) s A
  obtain ⟨U, hU, hUE⟩ := Mat.un_spec (fun c : T => -c) D
  have hUE' : U = E := Mat.ext_entry (fun i j => by
    rw [hUE, hDE, hEE]; simp)
  exact ⟨D, E, hD, hE, hDE, hEE, hUE' ▸ hU⟩

/-! ## Increment and decrement -/

/-- On a square extent the loop shared by `ESEED_MAT_PRE` and `ESEED_MAT_POST` succeeds
and applies the scalar step to every entry. -/
theorem forLoop_stepRows {K : Nat} {T : Type} (step : T → T) (m : Mat K K T) :
    forLoop K
        (fun i cur => (cur.index i).bind (fun r => cur.setIndex? i (Vec.map step r))) m =
      some ⟨fun r => Vec.map step (m.data r)⟩ := by
  obtain ⟨out, hout, hP⟩ := forLoop_inv
    (fun n (cur : Mat K K T) =>
      ∀ r : Fin K, cur.data r = if r.val < n then Vec.map step (m.data r) else m.data r)
    K (fun i cur => (cur.index i).bind (fun r => cur.setIndex? i (Vec.map step r))) m
    (by intro r; simp)
    (by
      intro n t hn hP
      have hcur : t.data ⟨n, hn⟩ = m.data ⟨n, hn⟩ := by simpa using hP ⟨n, hn⟩
      refine ⟨⟨Function.update t.data ⟨n, hn⟩ (Vec.map step (m.data ⟨n, hn⟩))⟩, ?_, ?_⟩
      · simp [Mat.index_of_lt t hn, Mat.setIndex?_square, Mat.setRow?_of_lt t hn, hcur]
      · intro r
        by_cases hr : r = ⟨n, hn⟩
        · subst hr; simp
        · have hne : r.val ≠ n := fun h => hr (Fin.ext h)
          show Function.update t.data ⟨n, hn⟩ _ r = _
          rw [Function.update_noteq hr, hP r]
          by_cases hlt : r.val < n
          · simp [hlt, Nat.lt_succ_of_lt hlt]
          · have : ¬ r.val < n + 1 := by omega
            simp [hlt, this])
  rw [hout]
  congr 1
  apply Mat.ext
  funext r
  rw [hP r]
  simp [r.isLt]

/-- C16 (code defect): on square extents, over a ring of scalars (the integers, the
integers modulo `2 ^ w`), for every matrix `m`: `m++` returns a copy of the old `m` and
leaves `m` with every entry increased by 1; `++m` leaves `m` with every entry increased
by 1 and returns that updated matrix; symmetrically for `--` with every entry decreased
by 1; and `++` followed by `--` restores the original matrix. On the non-square
`Mat<2,3,int>` none of `++m`, `m++`, `--m`, `m--` has a defined result. -/
theorem Mat.increment_decrement_on_square_only :
    (∀ (K : Nat) (T : Type) [Ring T] (m : Mat K K T),
      (∃ up : Mat K K T, (∀ (i j : Fin K), up.entry i j = m.entry i j + 1) ∧
        Mat.postOp (fun c => c + 1) m = some (up, m) ∧
        Mat.preOp (fun c => c + 1) m = some (up, up) ∧
        Mat.preOp (fun c => c - 1) up = some (m, m) ∧
        Mat.postOp (fun c => c - 1) up = some (m, up)) ∧
      (∃ down : Mat K K T, (∀ (i j : Fin K), down.entry i j = m.entry i j - 1) ∧
        Mat.postOp (fun c => c - 1) m = some (down, m) ∧
        Mat.preOp (fun c => c - 1) m = some (down, down))) ∧
    Mat.preOp (fun c : Int => c + 1) (⟨![⟨![1, 2, 3]⟩, ⟨![4, 5, 6]⟩]⟩ : Mat 2 3 Int) = none ∧
    Mat.postOp (fun c : Int => c + 1) (⟨![⟨![1, 2, 3]⟩, ⟨![4, 5, 6]⟩]⟩ : Mat 2 3 Int) = none ∧
    Mat.preOp (fun c : Int => c - 1) (⟨![⟨![1, 2, 3]⟩, ⟨![4, 5, 6]⟩]⟩ : Mat 2 3 Int) = none ∧
    Mat.postOp (fun c : Int => c - 1) (⟨![⟨![1, 2, 3]⟩, ⟨![4, 5, 6]⟩]⟩ : Mat 2 3 Int) = none := by
  refine ⟨?_, rfl, rfl, rfl, rfl⟩
  intro K T _ m
  have hback : (⟨fun r => Vec.map (fun c : T => c - 1)
      ((⟨fun r => Vec.map (fun c : T => c + 1) (m.data r)⟩ : Mat K K T).data r)⟩ : Mat K K T)
      = m := by
    apply Mat.ext_entry
    intro i j
    simp [Mat.entry, Vec.map]
  constructor
  · refine ⟨⟨fun r => Vec.map (fun c : T => c + 1) (m.data r)⟩, ?_, ?_, ?_, ?_, ?_⟩
    · intro i j; rfl
    · simp [Mat.postOp, forLoop_stepRows]
    · simp [Mat.preOp, forLoop_stepRows]
    · rw [Mat.preOp, forLoop_stepRows, hback]; rfl
    · rw [Mat.postOp, forLoop_stepRows, hback]; rfl
  · refine ⟨⟨fun r => Vec.map (fun c : T => c - 1) (m.data r)⟩, ?_, ?_, ?_⟩
    · intro i j; rfl
    · simp [Mat.postOp, forLoop_stepRows]
    · simp [Mat.preOp, forLoop_stepRows]

/-! ## The function pow -/

/-- C17 (code defect): the body of `pow(b, e)` stores `sq(v[i])`: it reads neither `b`
nor `e` (the result is the same for every `b` and `e`), and `v`, `T` are not declared.
With `v` read as `b`, `pow((2,3), 3)` is `(4, 9)`, the squares, not the cubes
`(8, 27)`. -/
theorem pow_ignores_exponent :
    (∀ (L : Nat) (T T1 : Type) [Zero T] [Mul T] (v b b' : Vec L T) (e e' : T1),
      pow v b e = pow v b' e') ∧
    (pow (⟨![2, 3]⟩ : Vec 2 Int) ⟨![2, 3]⟩ (3 : Nat)).map (fun out => [out.comps 0, out.comps 1])
      = some [4, 9] ∧
    [(2 : Int) ^ 3, (3 : Int) ^ 3] = [8, 27] :=
  ⟨fun _ _ _ _ _ _ _ _ _ _ => rfl, by decide, by decide⟩

/-! ## Bounds of the constructors' accesses -/

/-- C18 (code defect): the constructors leave their storage on non-square extents.
`Mat<2,1,int>(5)` writes `data[1][1]` (column index `1`, not `< N = 1`) and
`Mat<1,2,int>(5)` writes `data[1][1]` (row index `1`, not `< M = 1`);
`Mat<2,1,int>(1,2)` reads `expanded[1 * 2 + 0]`, and `1 * 2 + 0 < 2 * 1` is false. -/
theorem Mat.constructor_access_out_of_bounds :
    (Mat.ofScalar 2 1 (5 : Int) = none ∧ (Mat.default 2 1 Int).row? 1 ≠ none ∧
      (Vec.zero : Vec 1 Int).set? 1 5 = none) ∧
    (Mat.ofScalar 1 2 (5 : Int) = none ∧ (Mat.default 1 2 Int).row? 1 = none) ∧
    (Mat.ofComponents 2 1 (⟨![1, 2]⟩ : Vec (2 * 1) Int) = none ∧
      (⟨![1, 2]⟩ : Vec (2 * 1) Int).get? (1 * 2 + 0) = none ∧ ¬ (1 * 2 + 0 < 2 * 1)) :=
  ⟨⟨rfl, by simp [Mat.row?], rfl⟩, ⟨rfl, rfl⟩, ⟨rfl, rfl, by decide⟩⟩

end esdm
